import Mathlib

/- Verification of the spherical k-means implementation in
src/Galois/src/spkmeans.cpp.

The embedding below models the program shallowly:
  - machine floats (`float` / `double`) are idealised as real numbers `ℝ`;
  - a document vector `float*` of length `wc` is a `List ℝ` read through
    `List.getD` (out-of-range reads yield 0, matching zero-initialised memory
    where the program stays in range);
  - the document matrix `float**` is a `List (List ℝ)`;
  - a partition, stored by the program as an array of pointers into the
    document matrix, is modelled as a `List ℕ` of document indices;
  - the loaded sparse matrix is modelled as a total function `ℤ → ℤ → ℤ`
    (the program writes cell `(docId-1, wordId-1)` with no range check, so the
    model keeps the whole integer grid addressable);
  - an input line of the data file is modelled as the list of integers that
    `istringstream >> int` successively parses from it (its parsed prefix);
    a line contributes a triplet exactly when that list has three or more
    entries, matching `if(!(iss >> doc_id >> word_id >> count)) continue;`;
  - the `while(dQ > Q_THRESHOLD)` loop is modelled with explicit fuel:
    `none` means the fuel ran out before the loop exited.

The file `vectors.h` (vec_norm, vec_dot, vec_sum, vec_multiply, vec_divide,
vec_normalize) is not part of the provided sources; those six primitives are
modelled from the specification text, as marked on their doc comments. -/

namespace SPK

/-- Modelled from the spec: `vectors.h` is missing from the sources; §4.1
defines `norm(v)` as the Euclidean (L2) norm of the first `n` entries. -/
noncomputable def vec_norm (v : List ℝ) (n : ℕ) : ℝ :=
  Real.sqrt (∑ i ∈ Finset.range n, v.getD i 0 ^ 2)

/-- Modelled from the spec: `vectors.h` is missing from the sources; §4.1
defines `dot(a, b)` as the elementwise product sum. -/
noncomputable def vec_dot (a b : List ℝ) (n : ℕ) : ℝ :=
  ∑ i ∈ Finset.range n, a.getD i 0 * b.getD i 0

/-- Modelled from the spec: `vectors.h` is missing from the sources; §4.1
defines `sum(vectors, n, count)` as the elementwise sum across `count`
vectors of length `n`, a newly allocated vector (zero vector for count 0). -/
noncomputable def vec_sum (vs : List (List ℝ)) (n count : ℕ) : List ℝ :=
  (List.range n).map (fun i => ∑ j ∈ Finset.range count, (vs.getD j []).getD i 0)

/-- Modelled from the spec: `vectors.h` is missing from the sources; §4.1
defines `multiply(v, n, scalar)` as elementwise scaling. -/
noncomputable def vec_multiply (v : List ℝ) (n : ℕ) (scalar : ℝ) : List ℝ :=
  (List.range n).map (fun i => v.getD i 0 * scalar)

/-- Modelled from the spec: `vectors.h` is missing from the sources; §4.1
defines `divide(v, n, scalar)` as elementwise division by the scalar. -/
noncomputable def vec_divide (v : List ℝ) (n : ℕ) (scalar : ℝ) : List ℝ :=
  (List.range n).map (fun i => v.getD i 0 / scalar)

/-- Modelled from the spec: `vectors.h` is missing from the sources; §4.1
defines `normalize(v, n)` as dividing `v` by its own norm. -/
noncomputable def vec_normalize (v : List ℝ) (n : ℕ) : List ℝ :=
  vec_divide v n (vec_norm v n)

/-- Embeds `cosineSimilarity` (spkmeans.cpp lines 93-96):
`vec_dot(dv, cv, wc) / (vec_norm(dv, wc) * vec_norm(cv, wc))`. -/
noncomputable def cosineSimilarity (dv cv : List ℝ) (wc : ℕ) : ℝ :=
  vec_dot dv cv wc / (vec_norm dv wc * vec_norm cv wc)

/-- Embeds `computeConcept` (spkmeans.cpp lines 102-108): sum the partition,
scale in place by `1.0 / wc`, then divide in place by the norm of the scaled
vector. -/
noncomputable def computeConcept (partition : List (List ℝ)) (p_size wc : ℕ) : List ℝ :=
  let cv := vec_sum partition wc p_size
  let cv2 := vec_multiply cv wc (1 / (wc : ℝ))
  vec_divide cv2 wc (vec_norm cv2 wc)

/-- Stated from the specification's words, for comparison with
`computeConcept`: entry `i` of the concept vector is the `i`-th entry of the
elementwise sum of the member document vectors, scaled by `1 / wc`, divided
by the Euclidean norm of that scaled vector. -/
noncomputable def conceptOfPartitionSpec (partition : List (List ℝ)) (p_size wc : ℕ) :
    List ℝ :=
  (List.range wc).map (fun i =>
    ((∑ j ∈ Finset.range p_size, (partition.getD j []).getD i 0) / (wc : ℝ))
      / Real.sqrt (∑ i2 ∈ Finset.range wc,
          ((∑ j ∈ Finset.range p_size, (partition.getD j []).getD i2 0) / (wc : ℝ)) ^ 2))

/-- Embeds the single-partition `computeQuality` (spkmeans.cpp lines 69-75):
`vec_dot(vec_sum(partition, wc, p_size), concept, wc)`. -/
noncomputable def computeQuality (partition : List (List ℝ)) (p_size : ℕ)
    (concept : List ℝ) (wc : ℕ) : ℝ :=
  vec_dot (vec_sum partition wc p_size) concept wc

/-- Embeds the all-partitions overload of `computeQuality`
(spkmeans.cpp lines 81-88), renamed because Lean does not overload. -/
noncomputable def computeQualityTotal (partitions : List (List (List ℝ)))
    (p_sizes : List ℕ) (concepts : List (List ℝ)) (k wc : ℕ) : ℝ :=
  ∑ i ∈ Finset.range k,
    computeQuality (partitions.getD i []) (p_sizes.getD i 0) (concepts.getD i []) wc

/-- Embeds the inner best-cluster scan of the reassignment pass
(spkmeans.cpp lines 225-233): starting from `(cIndx, cVal) = (0, sims 0)`,
each `j` in the list replaces the running best only under a strict
`sims j > cVal` comparison. -/
noncomputable def bestClusterAux (sims : ℕ → ℝ) (js : List ℕ) (best : ℕ × ℝ) : ℕ × ℝ :=
  js.foldl (fun best j => if sims j > best.2 then (j, sims j) else best) best

/-- Embeds the choice of `cIndx` for one document (spkmeans.cpp lines
225-233): the scan runs over `j = 1, ..., k-1` after initialising with
cluster 0. -/
noncomputable def bestCluster (dv : List ℝ) (concepts : List (List ℝ)) (wc k : ℕ) : ℕ :=
  (bestClusterAux (fun j => cosineSimilarity dv (concepts.getD j []) wc)
    (List.range' 1 (k - 1)) (0, cosineSimilarity dv (concepts.getD 0 []) wc)).1

/-- Embeds one whole reassignment pass (spkmeans.cpp lines 221-235): for each
document index `i` below `dc`, in order, append `i` to the bucket
`new_partitions[cIndx]` chosen by `bestCluster`. -/
noncomputable def reassign (doc_matrix : List (List ℝ)) (concepts : List (List ℝ))
    (k wc dc : ℕ) : List (List ℕ) :=
  (List.range dc).foldl
    (fun parts i =>
      let c := bestCluster (doc_matrix.getD i []) concepts wc k
      parts.set c (parts.getD c [] ++ [i]))
    (List.replicate k [])

/-- Embeds `txnScheme` (spkmeans.cpp lines 41-45): normalize each of the
first `dc` rows of the matrix in place. -/
noncomputable def txnScheme (doc_matrix : List (List ℝ)) (dc wc : ℕ) : List (List ℝ) :=
  doc_matrix.mapIdx (fun i row => if i < dc then vec_normalize row wc else row)

/-- Embeds the initial arbitrary partitioning (spkmeans.cpp lines 184-201):
`split = floor(dc / k)`, `base` starts at 1; partition `i` spans the 1-based
document positions `base .. top` where `top = base + split - 1` except that
the last partition ends at `dc`; the stored references are
`doc_matrix[base + j - 1]`.  Loop-index arithmetic is carried out in `ℤ`
exactly as the program's `int` arithmetic; a non-positive `p_size` makes the
inner copy loop run zero times (`Int.toNat` of a non-positive size is 0). -/
def initPartStep (dc k : ℕ) (acc : List (List ℕ) × ℤ) (i : ℕ) : List (List ℕ) × ℤ :=
  let base := acc.2
  let top : ℤ := if i = k - 1 then (dc : ℤ) else base + ((dc / k : ℕ) : ℤ) - 1
  let p_size : ℤ := top - base + 1
  (acc.1 ++ [(List.range p_size.toNat).map (fun (j : ℕ) => (base + (j : ℤ) - 1).toNat)],
    base + ((dc / k : ℕ) : ℤ))

/-- Iterating `initPartStep` over `i = 0, ..., k-1` from the empty list and
`base = 1`, and keeping the produced partitions, embeds the whole
partitioning loop. -/
def initialPartitions (dc k : ℕ) : List (List ℕ) :=
  ((List.range k).foldl (initPartStep dc k) ([], 1)).1

/-- Closed form of the group of document indices that iteration `i` of the
partitioning loop stores (derived below, `initialPartitions_eq`): every
group holds `dc / k` consecutive indices except the last, which runs to the
end of the matrix. -/
def initGroup (dc k : ℕ) (i : ℕ) : List ℕ :=
  if i = k - 1 then
    (List.range (dc - (k - 1) * (dc / k))).map (fun j => (k - 1) * (dc / k) + j)
  else
    (List.range (dc / k)).map (fun j => i * (dc / k) + j)

/-- Embeds `Q_THRESHOLD` (spkmeans.cpp line 22). -/
noncomputable def Q_THRESHOLD : ℝ := 0.001

/-- State carried by the refinement loop of `runSPKMeans` (spkmeans.cpp
lines 215-254): current partitions (as document-index lists), their sizes,
the concept vectors, the running quality and the last quality change. -/
structure SPKState where
  partitions : List (List ℕ)
  p_sizes : List ℕ
  concepts : List (List ℝ)
  quality : ℝ
  dQ : ℝ

/-- Dereferences a list of document indices into the document matrix,
mirroring the pointer arrays the program stores inside partitions. -/
noncomputable def partitionVectors (doc_matrix : List (List ℝ))
    (parts : List (List ℕ)) : List (List (List ℝ)) :=
  parts.map (fun part => part.map (fun i => doc_matrix.getD i []))

/-- Embeds one iteration of the refinement loop body (spkmeans.cpp lines
218-253): reassign all documents, rebuild the partitions and their sizes,
recompute every concept vector, recompute the total quality, and set
`dQ = n_quality - quality`. -/
noncomputable def spkIteration (doc_matrix : List (List ℝ)) (k dc wc : ℕ)
    (s : SPKState) : SPKState :=
  let new_partitions := reassign doc_matrix s.concepts k wc dc
  let p_sizes := new_partitions.map List.length
  let vparts := partitionVectors doc_matrix new_partitions
  let concepts := (List.range k).map
    (fun i => computeConcept (vparts.getD i []) (p_sizes.getD i 0) wc)
  let n_quality := computeQualityTotal vparts p_sizes concepts k wc
  { partitions := new_partitions, p_sizes := p_sizes, concepts := concepts,
    quality := n_quality, dQ := n_quality - s.quality }

/-- Embeds the `while(dQ > Q_THRESHOLD)` refinement loop (spkmeans.cpp lines
215-254) with explicit fuel; `none` means the fuel was exhausted while the
condition still held. -/
noncomputable def spkLoop (doc_matrix : List (List ℝ)) (k dc wc : ℕ) :
    ℕ → SPKState → Option SPKState
  | 0, s => if s.dQ > Q_THRESHOLD then none else some s
  | fuel + 1, s =>
      if s.dQ > Q_THRESHOLD then
        spkLoop doc_matrix k dc wc fuel (spkIteration doc_matrix k dc wc s)
      else some s

/-- Embeds the state of `runSPKMeans` just before its loop (spkmeans.cpp
lines 177-216): initial partitions, their sizes, initial concept vectors,
the initial quality, and `dQ = Q_THRESHOLD * 10`. -/
noncomputable def initialState (doc_matrix : List (List ℝ)) (k dc wc : ℕ) : SPKState :=
  let partitions := initialPartitions dc k
  let p_sizes := partitions.map List.length
  let vparts := partitionVectors doc_matrix partitions
  let concepts := (List.range k).map
    (fun i => computeConcept (vparts.getD i []) (p_sizes.getD i 0) wc)
  let quality := computeQualityTotal vparts p_sizes concepts k wc
  { partitions := partitions, p_sizes := p_sizes, concepts := concepts,
    quality := quality, dQ := Q_THRESHOLD * 10 }

/-- Embeds `runSPKMeans` (spkmeans.cpp lines 166-267): apply the TXN scheme,
build the initial state, then run the refinement loop. -/
noncomputable def runSPKMeans (doc_matrix : List (List ℝ)) (k dc wc fuel : ℕ) :
    Option SPKState :=
  let docsN := txnScheme doc_matrix dc wc
  spkLoop docsN k dc wc fuel (initialState docsN k dc wc)

/-- Parsed-integer view of one input line: the triplet the program reads
when at least three integers parse from the line, `none` otherwise
(spkmeans.cpp lines 333-336). -/
def parseTriplet (line : List ℤ) : Option (ℤ × ℤ × ℤ) :=
  match line with
  | d :: w :: c :: _ => some (d, w, c)
  | _ => none

/-- Embeds the zero-initialised `dc × wc` allocation of `loadDocFile`
(spkmeans.cpp lines 324-328) as the everywhere-zero grid. -/
def zeroMatrix : ℤ → ℤ → ℤ := fun _ _ => 0

/-- Embeds the handling of one input line by `loadDocFile` (spkmeans.cpp
lines 332-338): a line that fails to parse as three integers is skipped and
the matrix is unchanged; otherwise cell `(doc_id - 1, word_id - 1)` is set
to `count`. -/
def applyLine (mat : ℤ → ℤ → ℤ) (line : List ℤ) : ℤ → ℤ → ℤ :=
  match parseTriplet line with
  | none => mat
  | some (d, w, c) => fun i j => if i = d - 1 ∧ j = w - 1 then c else mat i j

/-- Embeds the population loop of `loadDocFile` (spkmeans.cpp lines 330-338):
fold `applyLine` over the data lines starting from the zero matrix. -/
def loadDocFile (lines : List (List ℤ)) : ℤ → ℤ → ℤ :=
  lines.foldl applyLine zeroMatrix

/-- The counts of the successive triplets that write to cell
`(d - 1, w - 1)`, i.e. those whose parsed ids are exactly `(d, w)`. -/
def cellWrites (lines : List (List ℤ)) (d w : ℤ) : List ℤ :=
  lines.filterMap (fun line =>
    match parseTriplet line with
    | some (d', w', c) => if d' = d ∧ w' = w then some c else none
    | none => none)

/-- Sum of row `d - 1` of the matrix over the `wc` visible columns. -/
def rowSum (mat : ℤ → ℤ → ℤ) (d : ℤ) (wc : ℕ) : ℤ :=
  ∑ j ∈ Finset.range wc, mat (d - 1) (j : ℤ)

/-- Sum of the count values of the input triplets naming document `d`. -/
def docSum (lines : List (List ℤ)) (d : ℤ) : ℤ :=
  (lines.map (fun line =>
    match parseTriplet line with
    | some (d', _, c) => if d' = d then c else 0
    | none => 0)).sum

/-- A line is valid for a `dc × wc` file when it parses as a triplet whose
ids are 1-indexed in range. -/
def validLine (dc wc : ℕ) (line : List ℤ) : Bool :=
  match parseTriplet line with
  | some (d, w, _) => decide (1 ≤ d ∧ d ≤ (dc : ℤ) ∧ 1 ≤ w ∧ w ≤ (wc : ℤ))
  | none => false

/-- The cell a line writes, if any: the pair of parsed ids. -/
def lineKey (line : List ℤ) : Option (ℤ × ℤ) :=
  (parseTriplet line).map (fun t => (t.1, t.2.1))

/-- A well-formed input file: every line parses as an in-range triplet and
no two lines name the same cell. -/
def WellFormed (lines : List (List ℤ)) (dc wc : ℕ) : Prop :=
  (∀ line ∈ lines, validLine dc wc line = true) ∧
  List.Pairwise (fun a b => lineKey a ≠ lineKey b) lines

/-- Statement of claim C4 as written, for the counterexample: the sizes the
claim predicts when the first `dc mod k` groups absorb the remainder on top
of the integer-floor split size. -/
def claimedSizesC4 (dc k : ℕ) : List ℕ :=
  (List.range k).map (fun i => if i < dc % k then dc / k + 1 else dc / k)

/- Helper lemmas about the loader. -/

theorem loadDocFile_append_single (lines : List (List ℤ)) (line : List ℤ) :
    loadDocFile (lines ++ [line]) = applyLine (loadDocFile lines) line := by
  simp [loadDocFile, List.foldl_append]

theorem cellWrites_append (l₁ l₂ : List (List ℤ)) (d w : ℤ) :
    cellWrites (l₁ ++ l₂) d w = cellWrites l₁ d w ++ cellWrites l₂ d w := by
  simp [cellWrites, List.filterMap_append]

theorem foldl_applyLine_untouched (lines : List (List ℤ)) (m : ℤ → ℤ → ℤ) (i j : ℤ)
    (h : ∀ line ∈ lines, ∀ d w c : ℤ, parseTriplet line = some (d, w, c) →
      ¬(i = d - 1 ∧ j = w - 1)) :
    lines.foldl applyLine m i j = m i j := by
  induction lines generalizing m with
  | nil => rfl
  | cons line rest ih =>
      rw [List.foldl_cons]
      rw [ih _ (fun l hl => h l (List.mem_cons_of_mem _ hl))]
      rcases hpt : parseTriplet line with _ | ⟨d, w, c⟩
      · simp [applyLine, hpt]
      · have hne := h line (List.mem_cons_self _ _) d w c hpt
        simp [applyLine, hpt, hne]

theorem loadDocFile_untouched (lines : List (List ℤ)) (i j : ℤ)
    (h : ∀ line ∈ lines, ∀ d w c : ℤ, parseTriplet line = some (d, w, c) →
      ¬(i = d - 1 ∧ j = w - 1)) :
    loadDocFile lines i j = 0 :=
  foldl_applyLine_untouched lines zeroMatrix i j h

/-- C8: the loader starts from a matrix that is zero everywhere, handles the
lines left to right, sets cell `(docId - 1, wordId - 1)` to `count` for a
line parsing as the triplet `(docId, wordId, count)` while leaving every
other cell unchanged, and leaves the whole matrix unchanged on a line from
which three integers cannot be parsed. -/
theorem claimC8 (mat : ℤ → ℤ → ℤ) (line : List ℤ) (d w c : ℤ) (rest : List ℤ)
    (lines : List (List ℤ)) (i j : ℤ)
    (hmiss : ¬(i = d - 1 ∧ j = w - 1)) (hskip : parseTriplet line = none) :
    zeroMatrix i j = 0 ∧
    loadDocFile [] = zeroMatrix ∧
    loadDocFile (lines ++ [d :: w :: c :: rest]) =
      applyLine (loadDocFile lines) (d :: w :: c :: rest) ∧
    parseTriplet (d :: w :: c :: rest) = some (d, w, c) ∧
    applyLine mat (d :: w :: c :: rest) (d - 1) (w - 1) = c ∧
    applyLine mat (d :: w :: c :: rest) i j = mat i j ∧
    applyLine mat line = mat := by
  refine ⟨rfl, rfl, loadDocFile_append_single _ _, rfl, ?_, ?_, ?_⟩
  · simp [applyLine, parseTriplet]
  · simp [applyLine, parseTriplet, if_neg hmiss]
  · simp [applyLine, hskip]

/-- Witness for C8 at a concrete matrix, lines and cell. -/
theorem claimC8_witness :
    zeroMatrix 0 0 = 0 ∧
    loadDocFile [] = zeroMatrix ∧
    loadDocFile [[1, 1, 4], [2, 3, 7]] =
      applyLine (loadDocFile [[1, 1, 4]]) [2, 3, 7] ∧
    parseTriplet [2, 3, 7] = some (2, 3, 7) ∧
    applyLine zeroMatrix [2, 3, 7] (2 - 1) (3 - 1) = 7 ∧
    applyLine zeroMatrix [2, 3, 7] 0 0 = zeroMatrix 0 0 ∧
    applyLine zeroMatrix [9] = zeroMatrix :=
  claimC8 zeroMatrix [9] 2 3 7 [] [[1, 1, 4]] 0 0 (by decide) rfl

/-- C9: when several triplets name the same cell, the final cell value is the
count of the last such triplet (the loader overwrites, it does not
accumulate). -/
theorem claimC9 (lines : List (List ℤ)) (d w c : ℤ)
    (h : (cellWrites lines d w).getLast? = some c) :
    loadDocFile lines (d - 1) (w - 1) = c := by
  induction lines using List.reverseRecOn with
  | nil => simp [cellWrites] at h
  | append_singleton l line ih =>
      rw [loadDocFile_append_single]
      rw [cellWrites_append] at h
      rcases hpt : parseTriplet line with _ | ⟨d', w', c'⟩
      · rw [show cellWrites [line] d w = [] by simp [cellWrites, hpt]] at h
        rw [List.append_nil] at h
        simp [applyLine, hpt, ih h]
      · by_cases hdw : d' = d ∧ w' = w
        · rw [show cellWrites [line] d w = [c'] by simp [cellWrites, hpt, hdw]] at h
          rw [List.getLast?_concat] at h
          injection h with h
          subst h
          obtain ⟨hd, hw⟩ := hdw
          subst hd
          subst hw
          simp [applyLine, hpt]
        · rw [show cellWrites [line] d w = [] by simp [cellWrites, hpt, hdw]] at h
          rw [List.append_nil] at h
          have hcell : ¬(d - 1 = d' - 1 ∧ w - 1 = w' - 1) := by
            intro hc
            exact hdw ⟨by omega, by omega⟩
          have hstep : applyLine (loadDocFile l) line (d - 1) (w - 1) =
              loadDocFile l (d - 1) (w - 1) := by
            simp only [applyLine, hpt]
            exact if_neg hcell
          rw [hstep, ih h]

/-- Witness for C9: two triplets write cell `(1,1)`; the loaded value is the
last count, 7, not the sum 12. -/
theorem claimC9_witness : loadDocFile [[1, 1, 5], [1, 1, 7]] (1 - 1) (1 - 1) = 7 :=
  claimC9 [[1, 1, 5], [1, 1, 7]] 1 1 7 (by decide)

theorem wellFormed_append (lines : List (List ℤ)) (line : List ℤ) (dc wc : ℕ)
    (h : WellFormed (lines ++ [line]) dc wc) :
    WellFormed lines dc wc ∧ validLine dc wc line = true ∧
      ∀ a ∈ lines, lineKey a ≠ lineKey line := by
  obtain ⟨hv, hp⟩ := h
  rw [List.pairwise_append] at hp
  refine ⟨⟨fun l hl => hv l (List.mem_append_left _ hl), hp.1⟩,
    hv line (List.mem_append_right _ (List.mem_singleton_self _)), ?_⟩
  intro a ha
  exact hp.2.2 a ha line (List.mem_singleton_self _)

theorem validLine_spec (dc wc : ℕ) (line : List ℤ) (h : validLine dc wc line = true) :
    ∃ d w c : ℤ, parseTriplet line = some (d, w, c) ∧
      1 ≤ d ∧ d ≤ (dc : ℤ) ∧ 1 ≤ w ∧ w ≤ (wc : ℤ) := by
  rcases hpt : parseTriplet line with _ | ⟨d, w, c⟩
  · simp [validLine, hpt] at h
  · simp only [validLine, hpt, decide_eq_true_eq] at h
    exact ⟨d, w, c, rfl, h.1, h.2.1, h.2.2.1, h.2.2.2⟩

theorem docSum_append (l₁ l₂ : List (List ℤ)) (d : ℤ) :
    docSum (l₁ ++ l₂) d = docSum l₁ d + docSum l₂ d := by
  simp [docSum]

/-- C7: for a well-formed input (every line an in-range triplet, no two
lines naming the same cell), the sum of any one document's loaded row equals
the sum of the counts of the input triplets naming that document. -/
theorem claimC7 (lines : List (List ℤ)) (dc wc : ℕ) (d : ℤ)
    (h : WellFormed lines dc wc) :
    rowSum (loadDocFile lines) d wc = docSum lines d := by
  induction lines using List.reverseRecOn with
  | nil => simp [rowSum, docSum, loadDocFile, zeroMatrix]
  | append_singleton l line ih =>
      obtain ⟨hwf, hval, hfresh⟩ := wellFormed_append l line dc wc h
      obtain ⟨d0, w0, c0, hpt, hd1, hd2, hw1, hw2⟩ := validLine_spec dc wc line hval
      rw [loadDocFile_append_single, docSum_append]
      have hds : docSum [line] d = if d0 = d then c0 else 0 := by
        simp [docSum, hpt]
      rw [hds]
      have happ : ∀ i j : ℤ, applyLine (loadDocFile l) line i j =
          if i = d0 - 1 ∧ j = w0 - 1 then c0 else loadDocFile l i j := by
        intro i j
        simp only [applyLine, hpt]
      by_cases hd : d0 = d
      · subst hd
        have hw0 : (((w0 - 1).toNat : ℕ) : ℤ) = w0 - 1 := Int.toNat_of_nonneg (by omega)
        have htmem : (w0 - 1).toNat ∈ Finset.range wc := by
          rw [Finset.mem_range, ← Nat.cast_lt (α := ℤ), hw0]
          omega
        have hfresh0 : loadDocFile l (d0 - 1) (((w0 - 1).toNat : ℕ) : ℤ) = 0 := by
          apply loadDocFile_untouched
          intro line' hl' d' w' c' hpt' hc
          have hk := hfresh line' hl'
          rw [lineKey, lineKey, hpt, hpt'] at hk
          simp only [Option.map_some', ne_eq, Option.some.injEq, Prod.mk.injEq,
            not_and] at hk
          rw [hw0] at hc
          exact hk (by omega) (by omega)
        have hcond : ∀ j : ℕ, (d0 - 1 = d0 - 1 ∧ (j : ℤ) = w0 - 1) ↔
            j = (w0 - 1).toNat := by
          intro j
          constructor
          · intro hj
            rw [← hj.2, Int.toNat_ofNat]
          · intro hj
            refine ⟨rfl, ?_⟩
            rw [hj]
            exact hw0
        calc rowSum (applyLine (loadDocFile l) line) d0 wc
            = ∑ j ∈ Finset.range wc,
                if j = (w0 - 1).toNat then c0 else loadDocFile l (d0 - 1) (j : ℤ) := by
              refine Finset.sum_congr rfl ?_
              intro j _
              rw [happ]
              exact if_congr (hcond j) rfl rfl
          _ = (if (w0 - 1).toNat = (w0 - 1).toNat then c0
                else loadDocFile l (d0 - 1) (((w0 - 1).toNat : ℕ) : ℤ))
              + ∑ j ∈ (Finset.range wc).erase (w0 - 1).toNat,
                  if j = (w0 - 1).toNat then c0 else loadDocFile l (d0 - 1) (j : ℤ) :=
              (Finset.add_sum_erase _ _ htmem).symm
          _ = c0 + ∑ j ∈ (Finset.range wc).erase (w0 - 1).toNat,
                loadDocFile l (d0 - 1) (j : ℤ) := by
              rw [if_pos rfl]
              congr 1
              refine Finset.sum_congr rfl ?_
              intro j hj
              exact if_neg (Finset.ne_of_mem_erase hj)
          _ = c0 + ∑ j ∈ Finset.range wc, loadDocFile l (d0 - 1) (j : ℤ) := by
              congr 1
              exact Finset.sum_erase _ hfresh0
          _ = docSum l d0 + if d0 = d0 then c0 else 0 := by
              rw [if_pos rfl, ← ih hwf]
              rw [rowSum]
              ring
      · have hrow : ∀ j : ℕ, applyLine (loadDocFile l) line (d - 1) (j : ℤ) =
            loadDocFile l (d - 1) (j : ℤ) := by
          intro j
          rw [happ]
          exact if_neg (fun hc => hd (by omega))
        rw [rowSum]
        simp only [hrow]
        rw [if_neg hd, add_zero, ← ih hwf, rowSum]

/-- Witness for C7: a well-formed three-line file over a 2 by 2 matrix;
document 1 has triplets with counts 2 and 3, and its loaded row sums to
their sum. -/
theorem claimC7_witness :
    WellFormed [[1, 1, 2], [1, 2, 3], [2, 1, 4]] 2 2 ∧
    rowSum (loadDocFile [[1, 1, 2], [1, 2, 3], [2, 1, 4]]) 1 2 =
      docSum [[1, 1, 2], [1, 2, 3], [2, 1, 4]] 1 :=
  ⟨by simp only [WellFormed]; decide, claimC7 [[1, 1, 2], [1, 2, 3], [2, 1, 4]] 2 2 1
    (by simp only [WellFormed]; decide)⟩

/- Helper lemmas about the initial partitioning. -/

theorem getD_map_range {α : Type} {n i : ℕ} (f : ℕ → α) (d : α) (h : i < n) :
    ((List.range n).map f).getD i d = f i := by
  rw [List.getD_eq_getElem?_getD, List.getElem?_map, List.getElem?_range h]
  rfl

theorem last_group_le (dc k : ℕ) : (k - 1) * (dc / k) ≤ dc :=
  le_trans (Nat.mul_le_mul_right _ (Nat.sub_le k 1))
    (le_trans (Nat.le_of_eq (Nat.mul_comm k (dc / k))) (Nat.div_mul_le_self dc k))

theorem map_range_congr {α : Type} (f g : ℕ → α) (n n' : ℕ) (hn : n = n')
    (h : ∀ j, f j = g j) : (List.range n).map f = (List.range n').map g := by
  subst hn
  exact List.map_congr_left (fun j _ => h j)

theorem initPartStep_eq (dc k m : ℕ) (ps : List (List ℕ)) :
    initPartStep dc k (ps, 1 + (((m * (dc / k) : ℕ)) : ℤ)) m
      = (ps ++ [initGroup dc k m], 1 + ((((m + 1) * (dc / k) : ℕ)) : ℤ)) := by
  simp only [initPartStep, Prod.mk.injEq]
  constructor
  · refine congrArg (fun x : List ℕ => ps ++ [x]) ?_
    by_cases hlast : m = k - 1
    · rw [if_pos hlast]
      subst hlast
      rw [initGroup, if_pos rfl]
      refine map_range_congr _ _ _ _ ?_ ?_
      · rw [show (dc : ℤ) - (1 + ((((k - 1) * (dc / k) : ℕ)) : ℤ)) + 1
            = ((dc : ℕ) : ℤ) - ((((k - 1) * (dc / k) : ℕ)) : ℤ) from by ring,
          Int.toNat_sub]
      · intro j
        rw [show (1 : ℤ) + ((((k - 1) * (dc / k) : ℕ)) : ℤ) + (j : ℤ) - 1
            = ((((k - 1) * (dc / k) + j : ℕ)) : ℤ) from by push_cast; ring,
          Int.toNat_ofNat]
    · rw [if_neg hlast, initGroup, if_neg hlast]
      refine map_range_congr _ _ _ _ ?_ ?_
      · rw [show (1 : ℤ) + (((m * (dc / k) : ℕ)) : ℤ) + (((dc / k : ℕ)) : ℤ) - 1
            - (1 + (((m * (dc / k) : ℕ)) : ℤ)) + 1 = (((dc / k : ℕ)) : ℤ) from by ring,
          Int.toNat_ofNat]
      · intro j
        rw [show (1 : ℤ) + (((m * (dc / k) : ℕ)) : ℤ) + (j : ℤ) - 1
            = (((m * (dc / k) + j : ℕ)) : ℤ) from by push_cast; ring,
          Int.toNat_ofNat]
  · rw [show (m + 1) * (dc / k) = m * (dc / k) + dc / k from by ring]
    push_cast
    ring

theorem initPartStep_fold (dc k : ℕ) (m : ℕ) (hm : m ≤ k) :
    (List.range m).foldl (initPartStep dc k) ([], 1)
      = ((List.range m).map (initGroup dc k),
         1 + (((m * (dc / k) : ℕ)) : ℤ)) := by
  induction m with
  | zero => simp
  | succ m ih =>
      rw [List.range_succ, List.foldl_append, ih (Nat.le_of_succ_le hm),
        List.foldl_cons, List.foldl_nil, List.map_append, List.map_singleton,
        initPartStep_eq]

theorem initialPartitions_eq (dc k : ℕ) :
    initialPartitions dc k = (List.range k).map (initGroup dc k) := by
  rw [initialPartitions, initPartStep_fold dc k k le_rfl]

theorem initialPartitions_length (dc k : ℕ) : (initialPartitions dc k).length = k := by
  rw [initialPartitions_eq]
  simp

theorem initialPartitions_getD (dc k i : ℕ) (h : i < k) :
    (initialPartitions dc k).getD i [] = initGroup dc k i := by
  rw [initialPartitions_eq]
  exact getD_map_range _ _ h

theorem initGroup_length (dc k i : ℕ) :
    (initGroup dc k i).length =
      if i = k - 1 then dc - (k - 1) * (dc / k) else dc / k := by
  rw [initGroup]
  by_cases h : i = k - 1 <;> simp [h]

theorem initGroup_mid (dc k i : ℕ) (h : i ≠ k - 1) :
    initGroup dc k i = List.range' (i * (dc / k)) (dc / k) := by
  rw [initGroup, if_neg h, ← List.range'_eq_map_range]

theorem initGroup_last (dc k' : ℕ) :
    initGroup dc (k' + 1) k'
      = List.range' (k' * (dc / (k' + 1))) (dc - k' * (dc / (k' + 1))) := by
  rw [initGroup, if_pos (show k' = k' + 1 - 1 from rfl), ← List.range'_eq_map_range]
  norm_num

theorem initialPartitions_flatten_aux (dc k m : ℕ) (hm : m ≤ k - 1) :
    ((List.range m).map (initGroup dc k)).flatten = List.range' 0 (m * (dc / k)) := by
  induction m with
  | zero => simp
  | succ m ih =>
      rw [List.range_succ, List.map_append, List.flatten_append, ih (by omega),
        List.map_singleton, initGroup_mid dc k m (by omega)]
      rw [show List.range' (m * (dc / k)) (dc / k)
          = List.range' (0 + m * (dc / k)) (dc / k) from by rw [Nat.zero_add]]
      simp only [List.flatten_cons, List.flatten_nil, List.append_nil]
      rw [List.range'_append_1]
      congr 1
      ring

theorem initialPartitions_flatten (dc k : ℕ) (hk : 1 ≤ k) :
    (initialPartitions dc k).flatten = List.range dc := by
  rcases Nat.exists_eq_succ_of_ne_zero (Nat.one_le_iff_ne_zero.mp hk) with ⟨k', rfl⟩
  rw [initialPartitions_eq, List.range_succ, List.map_append, List.flatten_append,
    initialPartitions_flatten_aux dc (k' + 1) k' (by omega),
    List.map_singleton, initGroup_last]
  simp only [List.flatten_cons, List.flatten_nil, List.append_nil]
  rw [show List.range' (k' * (dc / (k' + 1))) (dc - k' * (dc / (k' + 1)))
      = List.range' (0 + k' * (dc / (k' + 1))) (dc - k' * (dc / (k' + 1))) from by
    rw [Nat.zero_add]]
  rw [List.range'_append_1, List.range_eq_range']
  congr 1
  have hle := last_group_le dc (k' + 1)
  rw [show k' + 1 - 1 = k' from rfl] at hle
  revert hle
  generalize k' * (dc / (k' + 1)) = A
  intro hle
  omega

theorem initialPartitions_size_sum (dc k : ℕ) (hk : 1 ≤ k) :
    (∑ i ∈ Finset.range k, ((initialPartitions dc k).getD i []).length) = dc := by
  rcases Nat.exists_eq_succ_of_ne_zero (Nat.one_le_iff_ne_zero.mp hk) with ⟨k', rfl⟩
  have hsum : ∀ i ∈ Finset.range (k' + 1),
      ((initialPartitions dc (k' + 1)).getD i []).length
        = if i = k' then dc - k' * (dc / (k' + 1)) else dc / (k' + 1) := by
    intro i hi
    rw [Finset.mem_range] at hi
    rw [initialPartitions_getD dc (k' + 1) i hi, initGroup_length]
    norm_num
  rw [Finset.sum_congr rfl hsum, Finset.sum_range_succ, if_pos rfl]
  have hmid : ∀ i ∈ Finset.range k',
      (if i = k' then dc - k' * (dc / (k' + 1)) else dc / (k' + 1)) = dc / (k' + 1) := by
    intro i hi
    rw [Finset.mem_range] at hi
    rw [if_neg (by omega)]
  rw [Finset.sum_congr rfl hmid, Finset.sum_const, Finset.card_range, smul_eq_mul]
  have hle := last_group_le dc (k' + 1)
  rw [show k' + 1 - 1 = k' from rfl] at hle
  revert hle
  generalize k' * (dc / (k' + 1)) = A
  intro hle
  omega

/-- C4 as stated is false on the code: at `dc = 3, k = 2` the program builds
groups of sizes `[1, 2]` (the last group takes the leftover), while a layout
whose first `dc mod k = 1` groups absorb the remainder would give sizes
`[2, 1]`. -/
theorem claimC4_counterexample :
    (initialPartitions 3 2).map List.length = [1, 2] ∧
    claimedSizesC4 3 2 = [2, 1] ∧
    (initialPartitions 3 2).map List.length ≠ claimedSizesC4 3 2 := by
  decide

/-- C4 amended: the initial partitioning splits the `dc` documents into `k`
contiguous groups in original order (their concatenation is exactly
`0, 1, ..., dc-1`); every group except the last has the integer-floor split
size `dc / k`, and the last group takes all the leftover,
`dc - (k-1) * (dc / k)` documents. -/
theorem claimC4_amended (dc k : ℕ) (hk : 1 ≤ k) :
    (initialPartitions dc k).length = k ∧
    (∀ i, i < k - 1 → ((initialPartitions dc k).getD i []).length = dc / k) ∧
    ((initialPartitions dc k).getD (k - 1) []).length = dc - (k - 1) * (dc / k) ∧
    (initialPartitions dc k).flatten = List.range dc := by
  refine ⟨initialPartitions_length dc k, ?_, ?_, initialPartitions_flatten dc k hk⟩
  · intro i hi
    rw [initialPartitions_getD dc k i (by omega), initGroup_length, if_neg (by omega)]
  · rw [initialPartitions_getD dc k (k - 1) (by omega), initGroup_length, if_pos rfl]

/-- Witness for the amended C4 at `dc = 7, k = 3`: group sizes are
`2, 2, 3` and the groups concatenate to `0..6` in order. -/
theorem claimC4_amended_witness :
    (initialPartitions 7 3).length = 3 ∧
    ((initialPartitions 7 3).getD 0 []).length = 7 / 3 ∧
    ((initialPartitions 7 3).getD 2 []).length = 7 - 2 * (7 / 3) ∧
    (initialPartitions 7 3).flatten = List.range 7 := by
  have h := claimC4_amended 7 3 (by norm_num)
  exact ⟨h.1, h.2.1 0 (by norm_num), h.2.2.1, h.2.2.2⟩

/-- C6: for `1 ≤ k ≤ dc` the initial partitioning yields exactly `k`
partitions whose sizes sum to `dc`, and the assignment is purely positional
and fully determined by `(dc, k)`: the concatenation of the groups, in
order, is exactly the document index sequence `0, 1, ..., dc-1`. -/
theorem claimC6 (dc k : ℕ) (_hdc : 1 ≤ dc) (hk1 : 1 ≤ k) (_hk2 : k ≤ dc) :
    (initialPartitions dc k).length = k ∧
    (∑ i ∈ Finset.range k, ((initialPartitions dc k).getD i []).length) = dc ∧
    (initialPartitions dc k).flatten = List.range dc :=
  ⟨initialPartitions_length dc k, initialPartitions_size_sum dc k hk1,
    initialPartitions_flatten dc k hk1⟩

/- The refinement loop: claims C2 and C10. -/

theorem spkLoop_enter (doc_matrix : List (List ℝ)) (k dc wc fuel : ℕ) (s : SPKState)
    (h : s.dQ > Q_THRESHOLD) :
    spkLoop doc_matrix k dc wc (fuel + 1) s
      = spkLoop doc_matrix k dc wc fuel (spkIteration doc_matrix k dc wc s) := by
  rw [spkLoop, if_pos h]

theorem spkLoop_exit (doc_matrix : List (List ℝ)) (k dc wc fuel : ℕ) (s : SPKState)
    (h : s.dQ ≤ Q_THRESHOLD) :
    spkLoop doc_matrix k dc wc (fuel + 1) s = some s := by
  rw [spkLoop, if_neg (not_lt.mpr h)]

/-- C2: the loop's continuation test `dQ > Q_THRESHOLD` makes it exit
exactly when `dQ ≤ Q_THRESHOLD` (threshold 0.001): the next check returns
the current state when `dQ ≤ Q_THRESHOLD`, a negative `dQ` in particular
satisfies that exit condition, and a `dQ > Q_THRESHOLD` always runs another
iteration instead of terminating. -/
theorem claimC2 (doc_matrix : List (List ℝ)) (k dc wc fuel : ℕ) (s : SPKState) :
    (spkLoop doc_matrix k dc wc (fuel + 1) s
      = if s.dQ ≤ Q_THRESHOLD then some s
        else spkLoop doc_matrix k dc wc fuel (spkIteration doc_matrix k dc wc s)) ∧
    (s.dQ < 0 → s.dQ ≤ Q_THRESHOLD) ∧
    (s.dQ > Q_THRESHOLD → spkLoop doc_matrix k dc wc (fuel + 1) s
        = spkLoop doc_matrix k dc wc fuel (spkIteration doc_matrix k dc wc s)) ∧
    (s.dQ ≤ Q_THRESHOLD → spkLoop doc_matrix k dc wc (fuel + 1) s = some s) ∧
    (spkIteration doc_matrix k dc wc s).dQ
      = (spkIteration doc_matrix k dc wc s).quality - s.quality := by
  refine ⟨?_, ?_, spkLoop_enter doc_matrix k dc wc fuel s,
    spkLoop_exit doc_matrix k dc wc fuel s, rfl⟩
  · by_cases h : s.dQ ≤ Q_THRESHOLD
    · rw [if_pos h]
      exact spkLoop_exit doc_matrix k dc wc fuel s h
    · rw [if_neg h]
      exact spkLoop_enter doc_matrix k dc wc fuel s (not_le.mp h)
  · intro h
    have h0 : (0 : ℝ) ≤ Q_THRESHOLD := by rw [Q_THRESHOLD]; norm_num
    linarith

/-- Witness for C2 at a concrete state with a negative quality change: the
loop exits and returns that state. -/
theorem claimC2_witness :
    ((SPKState.mk [] [] [] 0 (-1)).dQ < 0 → (SPKState.mk [] [] [] 0 (-1)).dQ ≤ Q_THRESHOLD) ∧
    spkLoop [] 1 1 1 (0 + 1) (SPKState.mk [] [] [] 0 (-1))
      = some (SPKState.mk [] [] [] 0 (-1)) := by
  have h := claimC2 [] 1 1 1 0 (SPKState.mk [] [] [] 0 (-1))
  exact ⟨h.2.1, h.2.2.2.1 (by rw [Q_THRESHOLD]; norm_num)⟩

/-- C10: the loop body always executes at least once, because `dQ` is
initialised to `Q_THRESHOLD * 10 > Q_THRESHOLD` before the first test,
whatever the initial quality is: from any state carrying that initial `dQ`
the first check enters the body, and `runSPKMeans` with nonzero fuel always
takes at least one iteration from its initial state. -/
theorem claimC10 (doc_matrix : List (List ℝ)) (k dc wc fuel : ℕ) (s : SPKState)
    (hs : s.dQ = Q_THRESHOLD * 10) :
    (initialState doc_matrix k dc wc).dQ = Q_THRESHOLD * 10 ∧
    Q_THRESHOLD * 10 > Q_THRESHOLD ∧
    spkLoop doc_matrix k dc wc (fuel + 1) s
      = spkLoop doc_matrix k dc wc fuel (spkIteration doc_matrix k dc wc s) ∧
    runSPKMeans doc_matrix k dc wc (fuel + 1)
      = spkLoop (txnScheme doc_matrix dc wc) k dc wc fuel
          (spkIteration (txnScheme doc_matrix dc wc) k dc wc
            (initialState (txnScheme doc_matrix dc wc) k dc wc)) := by
  have hgt : Q_THRESHOLD * 10 > Q_THRESHOLD := by rw [Q_THRESHOLD]; norm_num
  refine ⟨rfl, hgt, ?_, ?_⟩
  · exact spkLoop_enter doc_matrix k dc wc fuel s (by rw [hs]; exact hgt)
  · rw [runSPKMeans]
    exact spkLoop_enter (txnScheme doc_matrix dc wc) k dc wc fuel
      (initialState (txnScheme doc_matrix dc wc) k dc wc) hgt

/-- Witness for C10 at a concrete state whose quality is the arbitrary value
5 but whose `dQ` is the initialisation value. -/
theorem claimC10_witness :
    (initialState [] 1 1 1).dQ = Q_THRESHOLD * 10 ∧
    Q_THRESHOLD * 10 > Q_THRESHOLD ∧
    spkLoop [] 1 1 1 (0 + 1) (SPKState.mk [] [] [] 5 (Q_THRESHOLD * 10))
      = spkLoop [] 1 1 1 0 (spkIteration [] 1 1 1 (SPKState.mk [] [] [] 5 (Q_THRESHOLD * 10))) ∧
    runSPKMeans [] 1 1 1 (0 + 1)
      = spkLoop (txnScheme [] 1 1) 1 1 1 0
          (spkIteration (txnScheme [] 1 1) 1 1 1 (initialState (txnScheme [] 1 1) 1 1 1)) :=
  claimC10 [] 1 1 1 0 (SPKState.mk [] [] [] 5 (Q_THRESHOLD * 10)) rfl

/-- C5: the concept vector of a partition is the elementwise sum of the
member document vectors, scaled by `1 / wc`, then normalized to unit length
by dividing it by its own Euclidean norm — `computeConcept` coincides with
that specification, read off entry by entry. -/
theorem claimC5 (partition : List (List ℝ)) (p_size wc : ℕ) :
    computeConcept partition p_size wc = conceptOfPartitionSpec partition p_size wc := by
  have hcv2 : ∀ i, i < wc →
      (vec_multiply (vec_sum partition wc p_size) wc (1 / (wc : ℝ))).getD i 0
        = (∑ j ∈ Finset.range p_size, (partition.getD j []).getD i 0) / (wc : ℝ) := by
    intro i hi
    rw [vec_multiply, getD_map_range _ _ hi, vec_sum, getD_map_range _ _ hi, mul_one_div]
  simp only [computeConcept]
  rw [conceptOfPartitionSpec, vec_divide]
  refine List.map_congr_left ?_
  intro i hi
  rw [List.mem_range] at hi
  rw [hcv2 i hi]
  congr 1
  rw [vec_norm]
  congr 1
  refine Finset.sum_congr rfl ?_
  intro i2 hi2
  rw [Finset.mem_range] at hi2
  rw [hcv2 i2 hi2]

/- The reassignment pass: claims C1 and C3. -/

theorem bestClusterAux_spec (sims : ℕ → ℝ) (m : ℕ) :
    (bestClusterAux sims (List.range' 1 m) (0, sims 0)).2
        = sims (bestClusterAux sims (List.range' 1 m) (0, sims 0)).1 ∧
    (bestClusterAux sims (List.range' 1 m) (0, sims 0)).1 ≤ m ∧
    (∀ j, j ≤ m → sims j ≤ (bestClusterAux sims (List.range' 1 m) (0, sims 0)).2) ∧
    (∀ j, j < (bestClusterAux sims (List.range' 1 m) (0, sims 0)).1 →
      sims j < (bestClusterAux sims (List.range' 1 m) (0, sims 0)).2) := by
  induction m with
  | zero =>
      refine ⟨rfl, le_rfl, ?_, ?_⟩
      · intro j hj
        have hj0 : j = 0 := Nat.le_zero.mp hj
        subst hj0
        show sims 0 ≤ sims 0
        exact le_rfl
      · intro j hj
        exact absurd hj (Nat.not_lt_zero j)
  | succ m ih =>
      have hstep : bestClusterAux sims (List.range' 1 (m + 1)) (0, sims 0)
          = (if sims (m + 1) > (bestClusterAux sims (List.range' 1 m) (0, sims 0)).2
             then (m + 1, sims (m + 1))
             else bestClusterAux sims (List.range' 1 m) (0, sims 0)) := by
        rw [List.range'_1_concat, bestClusterAux, bestClusterAux, List.foldl_append,
          List.foldl_cons, List.foldl_nil, Nat.add_comm 1 m]
      obtain ⟨ih1, ih2, ih3, ih4⟩ := ih
      rw [hstep]
      set r := bestClusterAux sims (List.range' 1 m) (0, sims 0) with hr
      by_cases h : sims (m + 1) > r.2
      · rw [if_pos h]
        refine ⟨rfl, le_rfl, ?_, ?_⟩
        · intro j hj
          rcases Nat.lt_or_ge j (m + 1) with hj' | hj'
          · exact le_of_lt (lt_of_le_of_lt (ih3 j (by omega)) h)
          · have hj2 : j = m + 1 := by omega
            subst hj2
            exact le_rfl
        · intro j hj
          exact lt_of_le_of_lt (ih3 j (by omega)) h
      · rw [if_neg h]
        refine ⟨ih1, by omega, ?_, ih4⟩
        intro j hj
        rcases Nat.lt_or_ge j (m + 1) with hj' | hj'
        · exact ih3 j (by omega)
        · have hj2 : j = m + 1 := by omega
          subst hj2
          exact not_lt.mp h

theorem bestCluster_spec (dv : List ℝ) (concepts : List (List ℝ)) (wc k : ℕ)
    (hk : 1 ≤ k) :
    bestCluster dv concepts wc k < k ∧
    (∀ j, j < k → cosineSimilarity dv (concepts.getD j []) wc
        ≤ cosineSimilarity dv (concepts.getD (bestCluster dv concepts wc k) []) wc) ∧
    (∀ j, j < bestCluster dv concepts wc k →
      cosineSimilarity dv (concepts.getD j []) wc
        < cosineSimilarity dv (concepts.getD (bestCluster dv concepts wc k) []) wc) := by
  obtain ⟨h1, h2, h3, h4⟩ :=
    bestClusterAux_spec (fun j => cosineSimilarity dv (concepts.getD j []) wc) (k - 1)
  rw [bestCluster]
  refine ⟨by omega, ?_, ?_⟩
  · intro j hj
    have hle := h3 j (by omega)
    rw [h1] at hle
    exact hle
  · intro j hj
    have hlt := h4 j hj
    rw [h1] at hlt
    exact hlt

theorem getD_replicate_nil (k j : ℕ) : (List.replicate k ([] : List ℕ)).getD j [] = [] := by
  rw [List.getD_eq_getElem?_getD, List.getElem?_replicate]
  split <;> rfl

theorem bucketFold_length (f : ℕ → ℕ) (l : List ℕ) (init : List (List ℕ)) :
    (l.foldl (fun parts i => parts.set (f i) ((parts.getD (f i) []) ++ [i])) init).length
      = init.length := by
  induction l generalizing init with
  | nil => rfl
  | cons i t ih => rw [List.foldl_cons, ih, List.length_set]

theorem bucketFold_getD (f : ℕ → ℕ) (k : ℕ) (hf : ∀ i, f i < k) (l : List ℕ) :
    ∀ init : List (List ℕ), init.length = k → ∀ j,
      (l.foldl (fun parts i => parts.set (f i) ((parts.getD (f i) []) ++ [i])) init).getD j []
        = init.getD j [] ++ l.filter (fun i => decide (f i = j)) := by
  induction l with
  | nil =>
      intro init _ j
      simp
  | cons i t ih =>
      intro init hlen j
      rw [List.foldl_cons, ih _ (by rw [List.length_set]; exact hlen) j, List.filter_cons]
      by_cases hj : f i = j
      · have hset : (init.set (f i) (init.getD (f i) [] ++ [i])).getD j []
            = init.getD j [] ++ [i] := by
          subst hj
          rw [List.getD_eq_getElem?_getD, List.getElem?_set_self (by rw [hlen]; exact hf i),
            List.getD_eq_getElem?_getD]
          rfl
        rw [hset, if_pos (by simp [hj]), List.append_assoc]
        rfl
      · have hset : (init.set (f i) (init.getD (f i) [] ++ [i])).getD j []
            = init.getD j [] := by
          rw [List.getD_eq_getElem?_getD, List.getElem?_set_ne hj, List.getD_eq_getElem?_getD]
        rw [hset, if_neg (by simp [hj])]

theorem reassign_length (doc_matrix concepts : List (List ℝ)) (k wc dc : ℕ) :
    (reassign doc_matrix concepts k wc dc).length = k := by
  have h := bucketFold_length
    (fun i => bestCluster (doc_matrix.getD i []) concepts wc k)
    (List.range dc) (List.replicate k [])
  rw [List.length_replicate] at h
  exact h

theorem reassign_getD (doc_matrix concepts : List (List ℝ)) (k wc dc : ℕ)
    (hk : 1 ≤ k) (j : ℕ) :
    (reassign doc_matrix concepts k wc dc).getD j []
      = (List.range dc).filter
          (fun i => decide (bestCluster (doc_matrix.getD i []) concepts wc k = j)) := by
  have h := bucketFold_getD
    (fun i => bestCluster (doc_matrix.getD i []) concepts wc k) k
    (fun i => (bestCluster_spec (doc_matrix.getD i []) concepts wc k hk).1)
    (List.range dc) (List.replicate k []) (List.length_replicate k []) j
  rw [getD_replicate_nil, List.nil_append] at h
  exact h

theorem reassign_mem (doc_matrix concepts : List (List ℝ)) (k wc dc : ℕ)
    (hk : 1 ≤ k) (i j : ℕ) :
    i ∈ (reassign doc_matrix concepts k wc dc).getD j []
      ↔ i < dc ∧ bestCluster (doc_matrix.getD i []) concepts wc k = j := by
  rw [reassign_getD doc_matrix concepts k wc dc hk j, List.mem_filter, List.mem_range]
  simp

/-- C1: in a reassignment pass each document `i` is put in exactly the
bucket of its chosen cluster `bestCluster`, that cluster index is in range,
its concept vector attains the maximal cosine similarity with the document
among all `k` clusters, and every cluster of smaller index has strictly
smaller similarity — so ties go to the lowest index, the running best being
replaced only under a strict greater-than comparison. -/
theorem claimC1 (doc_matrix concepts : List (List ℝ)) (k wc dc : ℕ)
    (hk : 1 ≤ k) (i : ℕ) (hi : i < dc) :
    (∀ j, i ∈ (reassign doc_matrix concepts k wc dc).getD j []
        ↔ bestCluster (doc_matrix.getD i []) concepts wc k = j) ∧
    bestCluster (doc_matrix.getD i []) concepts wc k < k ∧
    (∀ j, j < k → cosineSimilarity (doc_matrix.getD i []) (concepts.getD j []) wc
        ≤ cosineSimilarity (doc_matrix.getD i [])
            (concepts.getD (bestCluster (doc_matrix.getD i []) concepts wc k) []) wc) ∧
    (∀ j, j < bestCluster (doc_matrix.getD i []) concepts wc k →
      cosineSimilarity (doc_matrix.getD i []) (concepts.getD j []) wc
        < cosineSimilarity (doc_matrix.getD i [])
            (concepts.getD (bestCluster (doc_matrix.getD i []) concepts wc k) []) wc) := by
  obtain ⟨hb1, hb2, hb3⟩ := bestCluster_spec (doc_matrix.getD i []) concepts wc k hk
  refine ⟨?_, hb1, hb2, hb3⟩
  intro j
  rw [reassign_mem doc_matrix concepts k wc dc hk i j]
  exact ⟨fun h => h.2, fun h => ⟨hi, h⟩⟩

/-- Witness for C1 with one unit document and two concept vectors. -/
theorem claimC1_witness :
    (0 ∈ (reassign [[(1 : ℝ), 0]] [[(1 : ℝ), 0], [(0 : ℝ), 1]] 2 2 1).getD 0 []
      ↔ bestCluster (([[(1 : ℝ), 0]] : List (List ℝ)).getD 0 [])
          [[(1 : ℝ), 0], [(0 : ℝ), 1]] 2 2 = 0) ∧
    bestCluster (([[(1 : ℝ), 0]] : List (List ℝ)).getD 0 [])
      [[(1 : ℝ), 0], [(0 : ℝ), 1]] 2 2 < 2 := by
  have h := claimC1 [[(1 : ℝ), 0]] [[(1 : ℝ), 0], [(0 : ℝ), 1]] 2 2 1
    (by norm_num) 0 (by norm_num)
  exact ⟨h.1 0, h.2.1⟩

/-- C3: after a reassignment pass there are exactly `k` partitions, every
document index below `dc` lies in exactly one of them, two distinct
partitions are disjoint, and a document index lies in some partition exactly
when it is below `dc`. -/
theorem claimC3 (doc_matrix concepts : List (List ℝ)) (k wc dc : ℕ) (hk : 1 ≤ k) :
    (reassign doc_matrix concepts k wc dc).length = k ∧
    (∀ i j, i ∈ (reassign doc_matrix concepts k wc dc).getD j []
        ↔ i < dc ∧ bestCluster (doc_matrix.getD i []) concepts wc k = j) ∧
    (∀ i, i < dc → ∃! j, j < k ∧
        i ∈ (reassign doc_matrix concepts k wc dc).getD j []) ∧
    (∀ j1 j2, j1 ≠ j2 → ∀ i,
        i ∈ (reassign doc_matrix concepts k wc dc).getD j1 [] →
          i ∉ (reassign doc_matrix concepts k wc dc).getD j2 []) ∧
    (∀ i, (∃ j, i ∈ (reassign doc_matrix concepts k wc dc).getD j []) ↔ i < dc) := by
  have hmem := reassign_mem doc_matrix concepts k wc dc hk
  refine ⟨reassign_length doc_matrix concepts k wc dc, hmem, ?_, ?_, ?_⟩
  · intro i hi
    refine ⟨bestCluster (doc_matrix.getD i []) concepts wc k,
      ⟨(bestCluster_spec (doc_matrix.getD i []) concepts wc k hk).1,
        (hmem i _).mpr ⟨hi, rfl⟩⟩, ?_⟩
    intro j hj
    have := (hmem i j).mp hj.2
    omega
  · intro j1 j2 hne i h1 h2
    have e1 := (hmem i j1).mp h1
    have e2 := (hmem i j2).mp h2
    omega
  · intro i
    constructor
    · intro ⟨j, hj⟩
      exact ((hmem i j).mp hj).1
    · intro hi
      exact ⟨bestCluster (doc_matrix.getD i []) concepts wc k, (hmem i _).mpr ⟨hi, rfl⟩⟩

/-- Witness for C3: one document, two clusters; the partition list has
length 2 and membership of document 0 in bucket 0 is characterized by its
chosen cluster. -/
theorem claimC3_witness :
    (reassign [[(1 : ℝ), 0]] [[(1 : ℝ), 0], [(0 : ℝ), 1]] 2 2 1).length = 2 ∧
    (0 ∈ (reassign [[(1 : ℝ), 0]] [[(1 : ℝ), 0], [(0 : ℝ), 1]] 2 2 1).getD 1 []
      ↔ 0 < 1 ∧ bestCluster (([[(1 : ℝ), 0]] : List (List ℝ)).getD 0 [])
          [[(1 : ℝ), 0], [(0 : ℝ), 1]] 2 2 = 1) := by
  have h := claimC3 [[(1 : ℝ), 0]] [[(1 : ℝ), 0], [(0 : ℝ), 1]] 2 2 1 (by norm_num)
  exact ⟨h.1, h.2.1 0 1⟩

/-- Witness for C6 at `dc = 5, k = 3`. -/
theorem claimC6_witness :
    (initialPartitions 5 3).length = 3 ∧
    (∑ i ∈ Finset.range 3, ((initialPartitions 5 3).getD i []).length) = 5 ∧
    (initialPartitions 5 3).flatten = List.range 5 :=
  claimC6 5 3 (by norm_num) (by norm_num) (by norm_num)

end SPK
